import Mathlib

/-!
Shallow embedding of the zinnia audio synthesis engine (Rust) in Lean 4.

Conventions of the embedding:
* `f32` sample values are modelled as exact rationals (`ℚ`); the floating
  constants `f32::consts::PI` and `f32::EPSILON` are themselves exact
  rationals and are embedded by their exact values.
* The Rust `Ticks` type (`u32`) is modelled as `ℕ`; the one place where
  `u32` subtraction can underflow (`LeftRightFade::apply`, channel 1) gets
  an additional `Option`-valued embedding that returns `none` exactly where
  the Rust subtraction underflows (panicking in debug builds).
* `f32::sin` appears only in the sample value returned by
  `Sinusoid::generate`; it is passed in as an uninterpreted function
  `sinf : ℚ → ℚ` so that the state transition stays exact and executable.
* Rust `Vec` indexing (which panics out of bounds) is modelled with
  `List.getD`; theorems about indexed access carry in-bounds hypotheses.
-/

namespace Zinnia

/-- Ticks, `pub type Ticks = u32` in sound.rs. -/
abbrev Ticks := Nat

/-- Exact rational value of the `f32` constant `std::f32::consts::PI`
(`0x40490FDB`, the `f32` nearest to pi). -/
def PI32 : ℚ := 13176795 / 4194304

/-- Exact value of `MAX_PHASE = 2.0 * PI` computed in `f32`
(the doubling is exact in binary floating point). -/
def MAX_PHASE : ℚ := 2 * PI32

/-- Exact rational value of `std::f32::EPSILON` (2 to the power -23). -/
def EPSILON32 : ℚ := 1 / 8388608

/-- The mixing concurrency cap, `const MAX_CONCURRENT: u32 = 4`. -/
def MAX_CONCURRENT : ℕ := 4

/-- Embeds `verify_scale` from sound.rs: `scale.abs().clamp(0.0, 1.0)`.
Rust `f32::clamp(lo, hi)` restricts the value into `[lo, hi]`. -/
def verify_scale (scale : ℚ) : ℚ := min (max |scale| 0) 1

/-- Embeds `calc_step`: `MAX_PHASE * freq / rate as f32`. -/
def calc_step (freq : ℚ) (rate : ℕ) : ℚ := MAX_PHASE * freq / (rate : ℚ)

/-- Embeds `duration_to_ticks`: `(duration.as_secs_f32() * rate as f32) as Ticks`.
The `as Ticks` cast truncates toward zero; the duration is nonnegative. -/
def duration_to_ticks (duration : ℚ) (rate : ℕ) : Ticks :=
  (duration * (rate : ℚ)).floor.toNat

/-- Embeds `struct Ticker` from sound.rs. -/
structure Ticker where
  tick_count : Ticks
  duration : Ticks
  deriving DecidableEq, Repr

/-- Embeds `Ticker::new(duration)`: tick counter starts at 0. -/
def Ticker.new (duration : Ticks) : Ticker :=
  { tick_count := 0, duration := duration }

/-- Embeds `Ticker::is_complete`: `self.tick_count >= self.duration`. -/
def Ticker.is_complete (t : Ticker) : Bool := t.tick_count ≥ t.duration

/-- Embeds `Ticker::tick`: `self.tick_count += 1`. -/
def Ticker.tick (t : Ticker) : Ticker := { t with tick_count := t.tick_count + 1 }

/-- Applies `Ticker.tick` k times (k registry cycles seen by one voice). -/
def Ticker.tickN (k : ℕ) (t : Ticker) : Ticker :=
  match k with
  | 0 => t
  | k + 1 => Ticker.tickN k t.tick

/-- One registry cycle on the lifecycle state of the live voices, as in the
generation loop of main.rs: every voice is advanced one tick
(`s.tick()`) and the completed ones are pruned
(`sounds.into_iter().filter(|s| !s.complete())`). Only the `Ticker`
lifecycle state of each voice is relevant to presence in the registry. -/
def registryStep (sounds : List Ticker) : List Ticker :=
  (sounds.map Ticker.tick).filter (fun s => ! s.is_complete)

/-- Runs k registry cycles. -/
def registryRun (sounds : List Ticker) : ℕ → List Ticker
  | 0 => sounds
  | k + 1 => registryRun (registryStep sounds) k

/-- Embeds `struct LinearFadeIn` from sound/filter.rs. -/
structure LinearFadeIn where
  duration : Ticks
  slope : ℚ
  deriving DecidableEq, Repr

/-- Embeds `LinearFadeIn::new(duration)`: `slope = 1.0 / duration as f32`. -/
def LinearFadeIn.new (duration : Ticks) : LinearFadeIn :=
  { duration := duration, slope := 1 / (duration : ℚ) }

/-- Embeds `Filter::apply` for `LinearFadeIn`. -/
def LinearFadeIn.apply (f : LinearFadeIn) (val : ℚ) (tick : Ticks) : ℚ :=
  if tick > f.duration then val else (tick : ℚ) * f.slope * val

/-- Embeds `struct LinearFadeOut` from sound/filter.rs. The Rust field
named `end` is called `endTick` here (`end` is a Lean keyword). -/
structure LinearFadeOut where
  start : Ticks
  endTick : Ticks
  slope : ℚ
  deriving DecidableEq, Repr

/-- Embeds `LinearFadeOut::new(duration, end)`: `start = end - duration`
(u32 subtraction: callers must have `duration ≤ end`, matched by `ℕ`
truncated subtraction on that domain), `slope = -1.0 / duration as f32`. -/
def LinearFadeOut.new (duration endTick : Ticks) : LinearFadeOut :=
  { start := endTick - duration, endTick := endTick, slope := -1 / (duration : ℚ) }

/-- Embeds `Filter::apply` for `LinearFadeOut`. Inside the active window
`tick - self.start` cannot underflow since `tick ≥ start` there. -/
def LinearFadeOut.apply (f : LinearFadeOut) (val : ℚ) (tick : Ticks) : ℚ :=
  if tick < f.start ∨ tick > f.endTick then val
  else (1 + f.slope * ((tick - f.start : ℕ) : ℚ)) * val

/-- Embeds `enum FadeDirection` from sound/filter.rs. -/
inductive FadeDirection where
  | LeftRight
  | RightLeft
  deriving DecidableEq, Repr

/-- Embeds `struct LeftRightFade` from sound/filter.rs. -/
structure LeftRightFade where
  min_scale : ℚ
  max_scale : ℚ
  direction : FadeDirection
  duration : Ticks
  slope : ℚ
  deriving DecidableEq, Repr

/-- Embeds `LeftRightFade::new`: both scale bounds go through
`verify_scale`, and `slope = (max_scale - min_scale).abs() / duration as f32`. -/
def LeftRightFade.new (min_scale max_scale : ℚ) (direction : FadeDirection)
    (duration : Ticks) : LeftRightFade :=
  let m := verify_scale min_scale
  let M := verify_scale max_scale
  { min_scale := m, max_scale := M, direction := direction,
    duration := duration, slope := |M - m| / (duration : ℚ) }

/-- Embeds `Filter::apply` for `LeftRightFade`. On channel 1 the Rust code
computes `self.duration - tick` in `u32`; this total embedding uses `ℕ`
truncated subtraction, which agrees with the Rust code whenever
`tick ≤ duration` (see `LeftRightFade.applyChecked` for the underflow). -/
def LeftRightFade.apply (f : LeftRightFade) (val : ℚ) (tick : Ticks)
    (channel : ℕ) : ℚ :=
  let p : ℚ × ℚ :=
    match f.direction with
    | FadeDirection.RightLeft => (f.min_scale, f.slope)
    | FadeDirection.LeftRight => (f.max_scale, -f.slope)
  let progress : ℚ :=
    ((match channel with
      | 0 => tick
      | 1 => f.duration - tick
      | _ => tick : ℕ) : ℚ)
  (progress * p.2 + p.1) * val

/-- Embeds `Filter::apply` for `LeftRightFade` with the `u32` subtraction
on channel 1 made explicit: `self.duration - tick` underflows (panics in a
debug build) exactly when `tick > duration`, modelled as `none`. -/
def LeftRightFade.applyChecked (f : LeftRightFade) (val : ℚ) (tick : Ticks)
    (channel : ℕ) : Option ℚ :=
  let p : ℚ × ℚ :=
    match f.direction with
    | FadeDirection.RightLeft => (f.min_scale, f.slope)
    | FadeDirection.LeftRight => (f.max_scale, -f.slope)
  let progress? : Option ℕ :=
    match channel with
    | 0 => some tick
    | 1 => if tick ≤ f.duration then some (f.duration - tick) else none
    | _ => some tick
  progress?.map (fun pr => ((pr : ℚ) * p.2 + p.1) * val)

/-- The closed set of filter variants behind `Box<dyn Filter>`. -/
inductive Filter where
  | fadeIn : LinearFadeIn → Filter
  | fadeOut : LinearFadeOut → Filter
  | leftRight : LeftRightFade → Filter
  deriving DecidableEq, Repr

/-- Dynamic dispatch of `Filter::apply` over the filter variants. -/
def Filter.apply (f : Filter) (val : ℚ) (tick : Ticks) (channel : ℕ) : ℚ :=
  match f with
  | Filter.fadeIn g => g.apply val tick
  | Filter.fadeOut g => g.apply val tick
  | Filter.leftRight g => g.apply val tick channel

/-- Embeds `struct FilterCollection` from sound/filter.rs. -/
structure FilterCollection where
  filters : Option (List Filter)

/-- Embeds `FilterCollection::new`: no filters. -/
def FilterCollection.new : FilterCollection := { filters := none }

/-- Embeds `FilterCollection::add_filter`. -/
def FilterCollection.add_filter (fc : FilterCollection) (f : Filter) :
    FilterCollection :=
  match fc.filters with
  | some fs => { filters := some (fs ++ [f]) }
  | none => { filters := some [f] }

/-- Embeds `FilterCollection::apply`: folds the filters in insertion order
over the value, or returns the value unchanged when there are none. -/
def FilterCollection.apply (fc : FilterCollection) (value : ℚ)
    (tick_count : Ticks) (channel : ℕ) : ℚ :=
  match fc.filters with
  | some fs => fs.foldl (fun v f => f.apply v tick_count channel) value
  | none => value

/-- Embeds `struct SoundConfig` from sound/config.rs. -/
structure SoundConfig where
  freq : ℚ
  phase : ℚ
  amplitude_scale : ℚ
  deriving DecidableEq, Repr

/-- Embeds `struct Sinusoid` from sound.rs. -/
structure Sinusoid where
  phase : List ℚ
  step : List ℚ
  amplitude : List ℚ
  filters : FilterCollection
  ticker : Ticker

/-- Embeds `Sinusoid::new`. The `SoundConfigCollection` is embedded as the
list of its `SoundConfig` entries (`map_phase(|phase| phase)` and
`map_amplitude(|amp| amp)` are identities; `map_freq` applies `calc_step`).
The tick duration is `duration_to_ticks(duration, hwp.rate())`. -/
def Sinusoid.new (config : List SoundConfig) (duration : ℚ) (rate : ℕ) :
    Sinusoid :=
  { phase := config.map (fun c => c.phase)
    step := config.map (fun c => calc_step c.freq rate)
    amplitude := config.map (fun c => c.amplitude_scale)
    filters := FilterCollection.new
    ticker := Ticker.new (duration_to_ticks duration rate) }

/-- Embeds `<Sinusoid as Sound>::generate`. The value
`self.phase[ch].sin() * self.amplitude[ch]` is computed from the current
phase with the `f32` sine passed in as `sinf`; then the channel's phase is
advanced by its step with no wrapping, and the filters are applied to the
value at the current tick count. Returns the filtered value and the
updated voice. -/
def Sinusoid.generate (sinf : ℚ → ℚ) (s : Sinusoid) (channel : ℕ) :
    ℚ × Sinusoid :=
  let ch := channel
  let res := sinf (s.phase.getD ch 0) * s.amplitude.getD ch 0
  let s' := { s with phase := s.phase.set ch (s.phase.getD ch 0 + s.step.getD ch 0) }
  (s.filters.apply res s.ticker.tick_count channel, s')

/-- Embeds `<Sinusoid as Sound>::tick`: only the ticker advances; the
phase vector is untouched. -/
def Sinusoid.tick (s : Sinusoid) : Sinusoid := { s with ticker := s.ticker.tick }

/-- Embeds `<Sinusoid as Sound>::is_complete`. -/
def Sinusoid.is_complete (s : Sinusoid) : Bool := s.ticker.is_complete

/-- Embeds `mix_internal` from sound.rs, abstracted over the values the
voices return: the Rust function folds `acc + s.generate(channel) / num_sounds`
over the voice vector, so `vals` is the list of per-voice
`generate(channel)` results in vector order. -/
def mix_internal (vals : List ℚ) (num_sounds : ℕ) : ℚ :=
  vals.foldl (fun acc v => acc + v / (num_sounds : ℚ)) 0

/-- Embeds `mix_fixed`: `mix_internal(sounds, channel, MAX_CONCURRENT)`. -/
def mix_fixed (vals : List ℚ) : ℚ := mix_internal vals MAX_CONCURRENT

/-- Embeds `mix`: the divisor is the live voice count `sounds.len()`. -/
def mix (vals : List ℚ) : ℚ := mix_internal vals vals.length

/-- Embeds `struct InputConfig` from sound.rs: a read-only interleaved
multi-channel sample buffer with its channel count. -/
structure InputConfig where
  data : List ℚ
  channels : ℕ

/-- Embeds `struct CachedPeriod` from sound.rs. -/
structure CachedPeriod where
  period_config : InputConfig
  amplitude : List ℚ
  idx : List ℚ
  idx_step : List ℚ
  idx_limit : ℚ
  filters : FilterCollection
  ticker : Ticker

/-- Embeds `CachedPeriod::new`. `data_size` is the Rust integer division
`data.len() / channels` cast to `f32`; `idx_step` is
`data_size / (rate / freq)`; the initial index is
`phase / MAX_PHASE * data_size`; `idx_limit = data_size - f32::EPSILON`. -/
def CachedPeriod.new (period_config : InputConfig)
    (sound_config : List SoundConfig) (duration : ℚ) (rate : ℕ) :
    CachedPeriod :=
  let d := duration_to_ticks duration rate
  let data_size : ℚ := ((period_config.data.length / period_config.channels : ℕ) : ℚ)
  { period_config := period_config
    amplitude := sound_config.map (fun c => c.amplitude_scale)
    idx := sound_config.map (fun c => c.phase / MAX_PHASE * data_size)
    idx_step := sound_config.map (fun c => data_size / ((rate : ℚ) / c.freq))
    idx_limit := data_size - EPSILON32
    filters := FilterCollection.new
    ticker := Ticker.new d }

/-- Embeds `<CachedPeriod as Sound>::generate`: linear interpolation
between the floor frame and the next frame (the upper index wraps modulo
`data.len()`), scaled by the channel amplitude; then the fractional index
advances by its step and wraps by subtracting `idx_limit` once it exceeds
it; finally the filters are applied at the current tick count. The Rust
`idx_f as usize` cast saturates negative values to 0, matched by
`Int.toNat`. Returns the filtered value and the updated voice. -/
def CachedPeriod.generate (cp : CachedPeriod) (channel : ℕ) :
    ℚ × CachedPeriod :=
  let ch := channel
  let in_ch := ch % cp.period_config.channels
  let in_chs := cp.period_config.channels
  let icur := cp.idx.getD ch 0
  let idx_f : ℤ := ⌊icur⌋
  let idx := idx_f.toNat * in_chs + in_ch
  let lower := cp.period_config.data.getD idx 0
  let upper := cp.period_config.data.getD
    ((idx + in_chs) % cp.period_config.data.length) 0
  let val := (lower + (upper - lower) * |icur - (idx_f : ℚ)|) *
    cp.amplitude.getD ch 0
  let iadv := icur + cp.idx_step.getD ch 0
  let inext := if iadv > cp.idx_limit then iadv - cp.idx_limit else iadv
  (cp.filters.apply val cp.ticker.tick_count channel,
    { cp with idx := cp.idx.set ch inext })

/-- Embeds `<CachedPeriod as Sound>::tick`. -/
def CachedPeriod.tick (cp : CachedPeriod) : CachedPeriod :=
  { cp with ticker := cp.ticker.tick }

/-- Embeds `<CachedPeriod as Sound>::is_complete`. -/
def CachedPeriod.is_complete (cp : CachedPeriod) : Bool := cp.ticker.is_complete

/-- The channel count the writer stage configures on the device in
main.rs: `hwp.set_channels(1)` — the pipeline is mono. -/
def writer_channels : ℕ := 1

/-- State of the generation loop of `generate` in main.rs: the period
buffer being filled (`vals`) and, for verification, the list of buffers
already sent into the period channel. -/
structure GenState where
  vals : List ℚ
  sent : List (List ℚ)

/-- One iteration of the generation loop in main.rs, abstracted over the
sample value produced this tick (0 when no voice is live, otherwise the
fold of the per-voice samples): the sample is pushed onto `vals`, and when
`vals.len() == period_size` the buffer is sent into the period channel and
a fresh buffer is started. -/
def genStep (period_size : ℕ) (st : GenState) (sample : ℚ) : GenState :=
  let vals := st.vals ++ [sample]
  if vals.length = period_size then { vals := [], sent := st.sent ++ [vals] }
  else { vals := vals, sent := st.sent }

/-- Runs the generation loop of main.rs over a list of per-tick samples. -/
def genRun (period_size : ℕ) (st : GenState) (samples : List ℚ) : GenState :=
  samples.foldl (genStep period_size) st

/-- Concrete mono wavetable voice over a 4-frame table, with its
fractional read index exactly at frame 2, amplitude 1 and no filters. -/
def cpAtFrame2 : CachedPeriod :=
  { period_config := { data := [10, 20, 30, 40], channels := 1 }
    amplitude := [1], idx := [(2 : ℚ)], idx_step := [0], idx_limit := 0
    filters := FilterCollection.new, ticker := Ticker.new 0 }

/-- Concrete mono wavetable voice over a 4-frame table, with its
fractional read index at 7/2 (between the last frame and the wrap to
frame 0), amplitude 1 and no filters. -/
def cpAtBoundary : CachedPeriod :=
  { period_config := { data := [10, 20, 30, 40], channels := 1 }
    amplitude := [1], idx := [(7 / 2 : ℚ)], idx_step := [0], idx_limit := 0
    filters := FilterCollection.new, ticker := Ticker.new 0 }

lemma Ticker.tickN_mk (k m d : ℕ) :
    Ticker.tickN k { tick_count := m, duration := d } =
      { tick_count := m + k, duration := d } := by
  induction k generalizing m with
  | zero => rfl
  | succ n ih =>
      show Ticker.tickN n (Ticker.tick { tick_count := m, duration := d }) = _
      rw [show Ticker.tick { tick_count := m, duration := d } =
          { tick_count := m + 1, duration := d : Ticker } from rfl, ih,
        show m + 1 + n = m + (n + 1) from by omega]

lemma registryRun_nil (k : ℕ) : registryRun [] k = [] := by
  induction k with
  | zero => rfl
  | succ n ih =>
      show registryRun (registryStep []) n = []
      rw [show registryStep [] = [] from rfl, ih]

lemma registryStep_single (m d : ℕ) :
    registryStep [{ tick_count := m, duration := d }] =
      if m + 1 < d then [{ tick_count := m + 1, duration := d }] else [] := by
  by_cases h : m + 1 < d <;>
    simp [registryStep, Ticker.tick, Ticker.is_complete, h]

lemma registryRun_single (d : ℕ) :
    ∀ (k m : ℕ), registryRun [{ tick_count := m, duration := d }] k =
      if k = 0 ∨ m + k < d then [{ tick_count := m + k, duration := d }] else [] := by
  intro k
  induction k with
  | zero => intro m; simp [registryRun]
  | succ n ih =>
      intro m
      show registryRun (registryStep [{ tick_count := m, duration := d }]) n = _
      rw [registryStep_single]
      by_cases h : m + 1 < d
      · rw [if_pos h, ih (m + 1)]
        have harith : m + 1 + n = m + (n + 1) := by omega
        by_cases h2 : m + 1 + n < d
        · have c1 : n = 0 ∨ m + 1 + n < d := Or.inr h2
          have c2 : n + 1 = 0 ∨ m + (n + 1) < d := Or.inr (harith ▸ h2)
          rw [if_pos c1, if_pos c2, harith]
        · have c1 : ¬(n = 0 ∨ m + 1 + n < d) := by omega
          have c2 : ¬(n + 1 = 0 ∨ m + (n + 1) < d) := by omega
          rw [if_neg c1, if_neg c2]
      · have c2 : ¬(n + 1 = 0 ∨ m + (n + 1) < d) := by omega
        rw [if_neg h, registryRun_nil, if_neg c2]

/-- C1 (amended): for the `Ticker` lifecycle state, `is_complete()` is
false at every internal tick count strictly below the duration `d` and
true from tick count `d` onward (`tick_count >= duration`); consequently,
in the registry cycle that advances every voice one tick and then prunes
completed voices, a voice of duration `d` is still present after `k`
cycles exactly when `k = 0` or `k < d`: it participates in `d` generation
cycles (internal counts `0 .. d-1` at generate time) and is pruned at the
end of cycle `d`. -/
theorem ticker_registry_lifecycle (d k : ℕ) :
    (Ticker.tickN k (Ticker.new d)).is_complete = decide (d ≤ k) ∧
    registryRun [Ticker.new d] k =
      if k = 0 ∨ k < d then [{ tick_count := k, duration := d }] else [] := by
  constructor
  · rw [show Ticker.new d = { tick_count := 0, duration := d : Ticker } from rfl,
      Ticker.tickN_mk]
    simp [Ticker.is_complete]
  · rw [show Ticker.new d = { tick_count := 0, duration := d : Ticker } from rfl,
      registryRun_single d k 0]
    simp

/-- C1 counterexample: the claim that `is_complete()` is false at every
internal tick count up to and including the duration is refuted by a
voice of duration 1 after one tick: its tick count 1 equals its duration,
yet `is_complete()` already returns true (`tick_count >= duration`). -/
theorem ticker_complete_at_duration_tick :
    ¬ (∀ t : Ticker, t.tick_count ≤ t.duration → t.is_complete = false) := by
  intro h
  have hc := h (Ticker.tickN 1 (Ticker.new 1)) (by decide)
  simp [Ticker.tickN, Ticker.tick, Ticker.new, Ticker.is_complete] at hc

/-- C10: `LeftRightFade::apply` computes `self.duration - tick` in `u32`
on channel 1, so it is well defined only under the precondition
`tick ≤ duration`: the checked embedding returns `none` (the Rust
subtraction underflows, panicking in a debug build) exactly when the
channel is 1 and the tick exceeds the filter's duration, and otherwise
agrees with the total embedding of `apply`. -/
theorem leftRightFade_apply_u32_precondition (f : LeftRightFade) (val : ℚ)
    (tick : Ticks) (channel : ℕ) :
    f.applyChecked val tick channel =
      if channel = 1 ∧ f.duration < tick then none
      else some (f.apply val tick channel) := by
  rcases channel with _ | channel
  · simp [LeftRightFade.applyChecked, LeftRightFade.apply]
  · rcases channel with _ | channel
    · by_cases h : tick ≤ f.duration
      · simp [LeftRightFade.applyChecked, LeftRightFade.apply, h,
          Nat.not_lt.mpr h]
      · simp [LeftRightFade.applyChecked, LeftRightFade.apply, h,
          Nat.lt_of_not_le h]
    · simp [LeftRightFade.applyChecked, LeftRightFade.apply]

lemma foldl_add_div_replicate (c v : ℚ) :
    ∀ (N : ℕ) (a : ℚ),
      (List.replicate N v).foldl (fun acc x => acc + x / c) a =
        a + (N : ℚ) * (v / c) := by
  intro N
  induction N with
  | zero => intro a; simp
  | succ n ih =>
      intro a
      rw [List.replicate_succ, List.foldl_cons, ih]
      push_cast
      ring

/-- C5: mixing with the fixed-cap policy over N voices that each return
the constant value v on the requested channel yields exactly N * v / 4:
`mix_fixed` folds `acc + v / MAX_CONCURRENT` with the constant cap
`MAX_CONCURRENT = 4` as divisor, independent of the live voice count. -/
theorem mix_fixed_constant (N : ℕ) (v : ℚ) (hN : N ≤ 4) :
    mix_fixed (List.replicate N v) = (N : ℚ) * v / 4 := by
  unfold mix_fixed mix_internal MAX_CONCURRENT
  rw [foldl_add_div_replicate]
  push_cast
  ring

/-- C5 witness: three voices each producing 2 mix to 3 * 2 / 4. -/
theorem mix_fixed_constant_witness :
    3 ≤ 4 ∧ mix_fixed (List.replicate 3 (2 : ℚ)) = ((3 : ℕ) : ℚ) * 2 / 4 :=
  ⟨by decide, mix_fixed_constant 3 2 (by decide)⟩

/-- C6: the linear fade-in filter of duration d scales the input value by
tick / d for every tick ≤ d, is the identity for every tick > d, returns
0 at tick 0, and returns the unscaled value at every tick ≥ d. -/
theorem linearFadeIn_spec (d : ℕ) (v : ℚ) (hd : 0 < d) :
    (∀ t : ℕ, t ≤ d →
      (LinearFadeIn.new d).apply v t = ((t : ℚ) / (d : ℚ)) * v) ∧
    (∀ t : ℕ, d < t → (LinearFadeIn.new d).apply v t = v) ∧
    (LinearFadeIn.new d).apply v 0 = 0 ∧
    (∀ t : ℕ, d ≤ t → (LinearFadeIn.new d).apply v t = v) := by
  have hd0 : (d : ℚ) ≠ 0 := Nat.cast_ne_zero.mpr (by omega)
  refine ⟨?_, ?_, ?_, ?_⟩
  · intro t ht
    simp only [LinearFadeIn.new, LinearFadeIn.apply, gt_iff_lt,
      if_neg (Nat.not_lt.mpr ht)]
    ring
  · intro t ht
    simp [LinearFadeIn.new, LinearFadeIn.apply, ht]
  · simp [LinearFadeIn.new, LinearFadeIn.apply]
  · intro t ht
    rcases Nat.lt_or_ge d t with h | h
    · simp [LinearFadeIn.new, LinearFadeIn.apply, h]
    · have htd : t = d := le_antisymm h ht
      subst htd
      simp only [LinearFadeIn.new, LinearFadeIn.apply, gt_iff_lt,
        if_neg (lt_irrefl t)]
      field_simp

/-- C6 witness: fade-in of duration 2 halves the value 3 at tick 1. -/
theorem linearFadeIn_spec_witness :
    0 < 2 ∧ (LinearFadeIn.new 2).apply 3 1 = (((1 : ℕ) : ℚ) / ((2 : ℕ) : ℚ)) * 3 :=
  ⟨by decide, (linearFadeIn_spec 2 3 (by decide)).1 1 (by decide)⟩

/-- C7: the linear fade-out filter with fade duration d and end tick e
(0 < d ≤ e) is the identity before tick e - d; on the window
e - d ≤ tick ≤ e it scales the value by 1 - (tick - (e - d)) / d, a
factor strictly decreasing in the tick; and at tick e the output is
exactly 0. -/
theorem linearFadeOut_spec (d e : ℕ) (v : ℚ) (hd : 0 < d) (hde : d ≤ e) :
    (∀ t : ℕ, t < e - d → (LinearFadeOut.new d e).apply v t = v) ∧
    (∀ t : ℕ, e - d ≤ t → t ≤ e →
      (LinearFadeOut.new d e).apply v t =
        (1 - (((t - (e - d) : ℕ)) : ℚ) / (d : ℚ)) * v) ∧
    (∀ t1 t2 : ℕ, e - d ≤ t1 → t1 < t2 → t2 ≤ e →
      (LinearFadeOut.new d e).apply 1 t2 < (LinearFadeOut.new d e).apply 1 t1) ∧
    (LinearFadeOut.new d e).apply v e = 0 := by
  have hd0 : (d : ℚ) ≠ 0 := Nat.cast_ne_zero.mpr (by omega)
  have hdpos : (0 : ℚ) < (d : ℚ) := by exact_mod_cast hd
  have hwin : ∀ t : ℕ, e - d ≤ t → t ≤ e →
      (LinearFadeOut.new d e).apply v t =
        (1 - (((t - (e - d) : ℕ)) : ℚ) / (d : ℚ)) * v := by
    intro t h1 h2
    have hcond : ¬(t < e - d ∨ t > e) := by omega
    simp only [LinearFadeOut.new, LinearFadeOut.apply, if_neg hcond]
    ring
  refine ⟨?_, hwin, ?_, ?_⟩
  · intro t ht
    simp [LinearFadeOut.new, LinearFadeOut.apply, ht]
  · intro t1 t2 h1 h12 h2
    have e1 := hwin t1 h1 (by omega)
    have e2 := hwin t2 (by omega) h2
    have hfac : (((t1 - (e - d) : ℕ)) : ℚ) < (((t2 - (e - d) : ℕ)) : ℚ) := by
      exact_mod_cast Nat.sub_lt_sub_right h1 h12
    have f1 : (LinearFadeOut.new d e).apply 1 t1 =
        (1 - (((t1 - (e - d) : ℕ)) : ℚ) / (d : ℚ)) := by
      have hcond : ¬(t1 < e - d ∨ t1 > e) := by omega
      simp only [LinearFadeOut.new, LinearFadeOut.apply, if_neg hcond]
      ring
    have f2 : (LinearFadeOut.new d e).apply 1 t2 =
        (1 - (((t2 - (e - d) : ℕ)) : ℚ) / (d : ℚ)) := by
      have hcond : ¬(t2 < e - d ∨ t2 > e) := by omega
      simp only [LinearFadeOut.new, LinearFadeOut.apply, if_neg hcond]
      ring
    rw [f1, f2]
    have hq := (div_lt_div_iff_of_pos_right hdpos).mpr hfac
    linarith
  · have he := hwin e (by omega) le_rfl
    rw [he, show (e - (e - d) : ℕ) = d from by omega]
    rw [div_self hd0]
    ring

/-- C7 witness: fade-out with duration 2 ending at tick 5 fully
attenuates the value 3 at tick 5. -/
theorem linearFadeOut_spec_witness :
    0 < 2 ∧ 2 ≤ 5 ∧ (LinearFadeOut.new 2 5).apply 3 5 = 0 :=
  ⟨by decide, by decide, (linearFadeOut_spec 2 5 3 (by decide) (by decide)).2.2.2⟩

/-- C3 (amended): `verify_scale` clamps its argument into [0, 1] (via
absolute value and `clamp(0.0, 1.0)`), and the stereo pan filter passes
both of its scale bounds through it at construction; the per-channel
amplitude scale factors of a voice, however, are stored at construction
exactly as configured (`map_amplitude(|amp| amp)` is the identity), with
no clamping. -/
theorem scale_clamping (x mn mx : ℚ) (dir : FadeDirection) (dur : ℕ)
    (config : List SoundConfig) (duration : ℚ) (rate : ℕ) :
    (0 ≤ verify_scale x ∧ verify_scale x ≤ 1) ∧
    ((LeftRightFade.new mn mx dir dur).min_scale = verify_scale mn ∧
      (LeftRightFade.new mn mx dir dur).max_scale = verify_scale mx) ∧
    (Sinusoid.new config duration rate).amplitude =
      config.map (fun c => c.amplitude_scale) := by
  refine ⟨⟨?_, ?_⟩, ⟨rfl, rfl⟩, rfl⟩
  · exact le_min (le_max_right _ _) zero_le_one
  · exact min_le_right _ _

/-- C3 counterexample: a voice configured with amplitude scale 2 stores
amplitude 2 unchanged, which is not in [0, 1] — per-channel amplitude is
not clamped at construction. -/
theorem sinusoid_amplitude_unclamped :
    (Sinusoid.new [{ freq := 1, phase := 0, amplitude_scale := 2 }] 1 4).amplitude.getD 0 0
      = 2 ∧ ¬((2 : ℚ) ≤ 1) := by
  constructor
  · rfl
  · norm_num

/-- C4 (amended): in the stereo pan ramp filter, channels 0 and 1 receive
complementary mirrored linear ramps (the channel-1 gain at tick t equals
the channel-0 gain at tick duration - t), but every channel with index
at least 2 is scaled exactly like channel 0 (the `_ => tick` match arm),
not passed through unchanged. -/
theorem leftRightFade_ramp_structure (mn mx : ℚ) (dir : FadeDirection)
    (dur : ℕ) (val : ℚ) (tick ch : ℕ) :
    (2 ≤ ch → (LeftRightFade.new mn mx dir dur).apply val tick ch =
      (LeftRightFade.new mn mx dir dur).apply val tick 0) ∧
    (tick ≤ dur → (LeftRightFade.new mn mx dir dur).apply val tick 1 =
      (LeftRightFade.new mn mx dir dur).apply val (dur - tick) 0) := by
  constructor
  · intro hch
    match ch, hch with
    | n + 2, _ => rfl
  · intro _
    rfl

/-- C4 witness: for the ramp from scale 0 to scale 1 over 4 ticks, the
output on channel 2 at tick 1 matches channel 0, and channel 1 at tick 1
matches channel 0 at tick 3. -/
theorem leftRightFade_ramp_structure_witness :
    (LeftRightFade.new 0 1 FadeDirection.RightLeft 4).apply 1 1 2 =
      (LeftRightFade.new 0 1 FadeDirection.RightLeft 4).apply 1 1 0 ∧
    (LeftRightFade.new 0 1 FadeDirection.RightLeft 4).apply 1 1 1 =
      (LeftRightFade.new 0 1 FadeDirection.RightLeft 4).apply 1 3 0 :=
  ⟨(leftRightFade_ramp_structure 0 1 FadeDirection.RightLeft 4 1 1 2).1 (by decide),
    (leftRightFade_ramp_structure 0 1 FadeDirection.RightLeft 4 1 1 1).2 (by decide)⟩

/-- C4 counterexample: with scale range [0, 1], direction right-to-left
and duration 4, the filter at tick 0 on channel 2 maps the input 1 to 0,
not to the unchanged input 1 — channels beyond index 1 are not passed
through. -/
theorem leftRightFade_channel2_not_passthrough :
    (LeftRightFade.new 0 1 FadeDirection.RightLeft 4).apply 1 0 2 = 0 ∧
    (0 : ℚ) ≠ 1 := by
  constructor
  · norm_num [LeftRightFade.new, LeftRightFade.apply, verify_scale]
  · norm_num

/-- C2 evidence (code bug): `Sinusoid::tick` leaves every stored phase
unchanged (only the tick counter advances), and `Sinusoid::generate`
advances the channel phase by its step with no wraparound; concretely,
a sinusoid voice built at rate 4 with frequency 3 (step 3/2 of a turn)
has stored phase 3 * MAX_PHASE / 2 after two generate calls and a tick,
violating the invariant that the phase stays below 2 * pi. -/
theorem sinusoid_phase_exceeds_two_pi :
    (Sinusoid.tick (Sinusoid.generate (fun _ => 0)
        ((Sinusoid.generate (fun _ => 0)
          (Sinusoid.new [{ freq := 3, phase := 0, amplitude_scale := 1 }] 1 4)
          0).2) 0).2).phase.getD 0 0 = 3 * MAX_PHASE / 2 ∧
    MAX_PHASE ≤ 3 * MAX_PHASE / 2 ∧
    (∀ s : Sinusoid, s.tick.phase = s.phase) := by
  refine ⟨?_, ?_, fun s => rfl⟩
  · norm_num [Sinusoid.new, Sinusoid.generate, Sinusoid.tick, calc_step,
      duration_to_ticks, MAX_PHASE, PI32]
  · norm_num [MAX_PHASE, PI32]

/-- C8: for a wavetable voice whose fractional read index on a channel is
exactly the integer frame f, with amplitude scale 1 and no filters,
`generate` returns exactly the stored table sample at frame f and that
channel (the interpolation weight is 0); and for an index whose floor is
the last frame of the table, the `upper` interpolation sample is taken —
via the modulo on `data.len()` — from frame 0, so interpolation just
below the table length wraps toward index 0. -/
theorem cachedPeriod_boundary_interpolation :
    (∀ (cp : CachedPeriod) (ch f : ℕ),
      cp.idx.getD ch 0 = (f : ℚ) →
      cp.amplitude.getD ch 0 = 1 →
      cp.filters.filters = none →
      f * cp.period_config.channels + ch % cp.period_config.channels <
        cp.period_config.data.length →
      (cp.generate ch).1 = cp.period_config.data.getD
        (f * cp.period_config.channels + ch % cp.period_config.channels) 0) ∧
    (∀ (cp : CachedPeriod) (ch frames : ℕ) (x : ℚ),
      0 < frames →
      0 < cp.period_config.channels →
      cp.period_config.data.length = frames * cp.period_config.channels →
      cp.idx.getD ch 0 = x →
      ⌊x⌋ = ((frames - 1 : ℕ) : ℤ) →
      cp.amplitude.getD ch 0 = 1 →
      cp.filters.filters = none →
      (cp.generate ch).1 =
        cp.period_config.data.getD
          ((frames - 1) * cp.period_config.channels +
            ch % cp.period_config.channels) 0 +
        (cp.period_config.data.getD (ch % cp.period_config.channels) 0 -
          cp.period_config.data.getD
            ((frames - 1) * cp.period_config.channels +
              ch % cp.period_config.channels) 0) *
          (x - ((frames - 1 : ℕ) : ℚ))) := by
  constructor
  · intro cp ch f hidx hamp hfil _hbound
    simp only [CachedPeriod.generate, hidx, hamp, Int.floor_natCast,
      FilterCollection.apply, hfil, Int.toNat_natCast, Rat.cast_natCast,
      mul_one]
    rw [show ((f : ℤ) : ℚ) = (f : ℚ) from by push_cast; rfl]
    simp
  · intro cp ch frames x hfr hchs hlen hidx hfloor hamp hfil
    obtain ⟨fm, rfl⟩ : ∃ fm, frames = fm + 1 := ⟨frames - 1, by omega⟩
    have hfm : (fm + 1 - 1 : ℕ) = fm := by omega
    rw [hfm] at hfloor ⊢
    have hmod : ch % cp.period_config.channels < cp.period_config.channels :=
      Nat.mod_lt ch hchs
    have hupper : (fm * cp.period_config.channels +
        ch % cp.period_config.channels + cp.period_config.channels) %
          cp.period_config.data.length = ch % cp.period_config.channels := by
      have h1 : fm * cp.period_config.channels +
          ch % cp.period_config.channels + cp.period_config.channels =
          cp.period_config.data.length + ch % cp.period_config.channels := by
        rw [hlen]; ring
      rw [h1, Nat.add_mod_left, Nat.mod_eq_of_lt]
      rw [hlen]
      calc ch % cp.period_config.channels < cp.period_config.channels := hmod
        _ ≤ (fm + 1) * cp.period_config.channels :=
            Nat.le_mul_of_pos_left _ (by omega)
    have hfract : |x - ((fm : ℕ) : ℚ)| = x - ((fm : ℕ) : ℚ) := by
      apply abs_of_nonneg
      have h0 : ((⌊x⌋ : ℤ) : ℚ) ≤ x := Int.floor_le x
      rw [hfloor] at h0
      push_cast at h0 ⊢
      linarith
    simp only [CachedPeriod.generate, hidx, hamp, hfloor,
      FilterCollection.apply, hfil, Int.toNat_natCast, mul_one]
    rw [hupper]
    rw [show (((fm : ℕ) : ℤ) : ℚ) = ((fm : ℕ) : ℚ) from by push_cast; rfl]
    rw [hfract]

/-- C8 witness: on the table [10, 20, 30, 40] (mono), reading exactly at
frame 2 yields the stored sample 30, and reading at index 7/2 (floor is
the last frame, 3) interpolates halfway between the last sample 40 and
the frame-0 sample 10, yielding 25. -/
theorem cachedPeriod_boundary_interpolation_witness :
    (cpAtFrame2.generate 0).1 =
      cpAtFrame2.period_config.data.getD
        (2 * cpAtFrame2.period_config.channels +
          0 % cpAtFrame2.period_config.channels) 0 ∧
    (cpAtBoundary.generate 0).1 =
      cpAtBoundary.period_config.data.getD
        ((4 - 1) * cpAtBoundary.period_config.channels +
          0 % cpAtBoundary.period_config.channels) 0 +
      (cpAtBoundary.period_config.data.getD
          (0 % cpAtBoundary.period_config.channels) 0 -
        cpAtBoundary.period_config.data.getD
          ((4 - 1) * cpAtBoundary.period_config.channels +
            0 % cpAtBoundary.period_config.channels) 0) *
        ((7 / 2 : ℚ) - ((4 - 1 : ℕ) : ℚ)) :=
  ⟨cachedPeriod_boundary_interpolation.1 cpAtFrame2 0 2 rfl rfl rfl
      (by decide),
    cachedPeriod_boundary_interpolation.2 cpAtBoundary 0 4 (7 / 2)
      (by decide) (by decide) (by decide) rfl (by norm_num [Int.floor_eq_iff])
      rfl rfl⟩

lemma genStep_inv (ps : ℕ) (hps : 0 < ps) (st : GenState) (s : ℚ)
    (h1 : ∀ buf ∈ st.sent, buf.length = ps) (h2 : st.vals.length < ps) :
    (∀ buf ∈ (genStep ps st s).sent, buf.length = ps) ∧
    (genStep ps st s).vals.length < ps := by
  unfold genStep
  by_cases h : (st.vals ++ [s]).length = ps
  · rw [if_pos h]
    refine ⟨?_, hps⟩
    intro buf hbuf
    rcases List.mem_append.mp hbuf with hin | hone
    · exact h1 buf hin
    · rw [List.mem_singleton.mp hone]
      exact h
  · rw [if_neg h]
    refine ⟨h1, ?_⟩
    show (st.vals ++ [s]).length < ps
    have := List.length_append st.vals [s]
    simp only [List.length_singleton] at this
    omega

lemma genRun_inv (ps : ℕ) (hps : 0 < ps) :
    ∀ (samples : List ℚ) (st : GenState),
      (∀ buf ∈ st.sent, buf.length = ps) → st.vals.length < ps →
      ∀ buf ∈ (genRun ps st samples).sent, buf.length = ps := by
  intro samples
  induction samples with
  | nil => intro st h1 _ buf hbuf; exact h1 buf hbuf
  | cons s rest ih =>
      intro st h1 h2
      show ∀ buf ∈ (genRun ps (genStep ps st s) rest).sent, buf.length = ps
      obtain ⟨h1', h2'⟩ := genStep_inv ps hps st s h1 h2
      exact ih (genStep ps st s) h1' h2'

/-- C9: every period buffer the generation loop of main.rs sends into
the period channel has length exactly `period_size`; since the writer
stage configures the device with `set_channels(1)`, that is exactly
`period_size * channel_count` — one sample per channel per tick of the
period. -/
theorem generation_period_buffer_length (ps : ℕ) (samples : List ℚ)
    (hps : 0 < ps) :
    ∀ buf ∈ (genRun ps { vals := [], sent := [] } samples).sent,
      buf.length = ps * writer_channels := by
  have hmul : ps * writer_channels = ps := by
    unfold writer_channels
    omega
  rw [hmul]
  exact genRun_inv ps hps samples { vals := [], sent := [] }
    (by intro buf hbuf; simp at hbuf) (by simpa using hps)

/-- C9 witness: with period size 2 and three generated samples, the one
completed period buffer sent has length 2 * 1. -/
theorem generation_period_buffer_length_witness :
    0 < 2 ∧ List.length [(1 : ℚ), 2] = 2 * writer_channels :=
  ⟨by decide,
    generation_period_buffer_length 2 [1, 2, 3] (by decide) [(1 : ℚ), 2]
      (by decide)⟩

end Zinnia
